import Mathlib

/-!
Free camera of the infinite-grid demo (`src/main.cpp`).

Shallow embedding of the camera globals and of the three input handlers
`mouse_callback`, `scroll_callback` and `processInput`.

The program stores its scalars as `float`.  Here a scalar is an element of a
linearly ordered field `K` and the field operations are exact, so the rounding of
sums and products, infinities and NaN are outside the model.  The one operation of
the program that is not total on a field, the division inside `glm::normalize`, is
kept undefined where the program divides by zero: it returns `none` there.

The functions of the C math library are a parameter (`MathLib`).  `realMath` is
their instance over `ℝ`.  Where a property depends on the library returning an
exact value, it is stated with that as a hypothesis, and `binary32FirstCall` holds
the values the `float` library returns instead.
-/

namespace InfiniteGrid

/-- Three-component vector, the counterpart of `glm::vec3`. -/
@[ext]
structure Vec3 (K : Type) where
  x : K
  y : K
  z : K
deriving DecidableEq

namespace Vec3

variable {K : Type} [LinearOrderedField K]

/-- Component-wise sum, `a + b` on `glm::vec3`. -/
def add (a b : Vec3 K) : Vec3 K := ⟨a.x + b.x, a.y + b.y, a.z + b.z⟩

/-- Component-wise difference, `a - b` on `glm::vec3`. -/
def sub (a b : Vec3 K) : Vec3 K := ⟨a.x - b.x, a.y - b.y, a.z - b.z⟩

/-- Scalar times vector, `c * v` on `glm::vec3`. -/
def smul (c : K) (v : Vec3 K) : Vec3 K := ⟨c * v.x, c * v.y, c * v.z⟩

/-- Modelled from the spec: `glm::dot` is library code outside `src/`; the sum of
the component products. -/
def dot (a b : Vec3 K) : K := a.x * b.x + a.y * b.y + a.z * b.z

/-- Modelled from the spec: `glm::cross` is library code outside `src/`; the spec
speaks of the "cross product of horizontal-forward and world-up". -/
def cross (a b : Vec3 K) : Vec3 K :=
  ⟨a.y * b.z - b.y * a.z, a.z * b.x - b.z * a.x, a.x * b.y - b.x * a.y⟩

end Vec3

/-- The functions and the constant the program takes from the C math library and
from glm: `cos`, `sin`, `sqrt`, and the factor `π / 180` of `glm::radians`. -/
structure MathLib (K : Type) where
  cos : K → K
  sin : K → K
  sqrt : K → K
  degToRad : K

/-- The math library over the real numbers. -/
noncomputable def realMath : MathLib ℝ where
  cos := Real.cos
  sin := Real.sin
  sqrt := Real.sqrt
  degToRad := Real.pi / 180

/-- The values the binary32 (`float`) math library returns at the arguments the
first call of `mouse_callback` evaluates on `yaw = -90`, `pitch = 0`:
`glm::radians` multiplies by the `float` nearest to `π / 180`, which is
`9370165 / 2^29`; `cos 0 = 1` and `sin 0 = 0`; at `radians (-90)` the cosine is
`-6151831 / 2^47`, about `-4.37e-8`, and the sine is `-1`; the square root of a
number that rounds to `1.0f` is `1`.  No other argument is evaluated by that call,
and the table is `0` there. -/
def binary32FirstCall : MathLib ℚ where
  cos := fun x =>
    if x = 0 then 1
    else if x = -90 * (9370165 / 536870912) then -(6151831 / 140737488355328) else 0
  sin := fun x =>
    if x = 0 then 0 else if x = -90 * (9370165 / 536870912) then -1 else 0
  sqrt := fun x => if 1 ≤ x ∧ x < 1 + 1 / 16777216 then 1 else 0
  degToRad := 9370165 / 536870912

section Model

variable {K : Type} [LinearOrderedField K]

/-- Modelled from the spec: `glm::radians` is library code outside `src/`; degrees
times `π / 180` ("angles in radians"). -/
def radians (M : MathLib K) (degrees : K) : K := degrees * M.degToRad

/-- Modelled from the spec: `glm::inversesqrt` is library code outside `src/`;
`1 / sqrt x`, undefined where `sqrt x` is zero. -/
def inversesqrt (M : MathLib K) (x : K) : Option K :=
  if M.sqrt x = 0 then none else some (1 / M.sqrt x)

/-- Modelled from the spec: `glm::normalize` is library code outside `src/`; the
spec says "normalized to unit length": `v * inversesqrt (dot v v)`, undefined
where that divides by zero. -/
def normalize (M : MathLib K) (v : Vec3 K) : Option (Vec3 K) :=
  (inversesqrt M (Vec3.dot v v)).map fun r => ⟨v.x * r, v.y * r, v.z * r⟩

/-- The camera globals of `main.cpp` (lines 23-36), together with the close flag
of the window that `processInput` sets on ESCAPE. -/
structure Camera (K : Type) where
  cameraPos : Vec3 K
  cameraFront : Vec3 K
  cameraUp : Vec3 K
  deltaTime : K
  lastFrame : K
  lastX : K
  lastY : K
  yaw : K
  pitch : K
  firstMouse : Bool
  fov : K
  windowShouldClose : Bool

/-- The values the globals are initialised with. -/
def initialCamera : Camera K where
  cameraPos := ⟨0, 2.1, 3⟩
  cameraFront := ⟨0, 0, -1⟩
  cameraUp := ⟨0, 1, 0⟩
  deltaTime := 0
  lastFrame := 0
  lastX := 400
  lastY := 300
  yaw := -90
  pitch := 0
  firstMouse := true
  fov := 45
  windowShouldClose := false

/-- The keys `processInput` polls with `glfwGetKey`; `true` is `GLFW_PRESS`. -/
structure Keys where
  escape : Bool
  w : Bool
  s : Bool
  a : Bool
  d : Bool
deriving DecidableEq

/-- The timing statements at the head of the render loop (lines 105-107). -/
def frameTime (c : Camera K) (currentFrame : K) : Camera K :=
  { c with deltaTime := currentFrame - c.lastFrame, lastFrame := currentFrame }

/-- The updates `pos += speed * v` (with `Vec3.add`) and `pos -= speed * v` (with
`Vec3.sub`) of `processInput`, where `v` is the result of a normalization and may be
undefined: an undefined operand leaves the position undefined. -/
def moveBy (op : Vec3 K → Vec3 K → Vec3 K) (pos : Option (Vec3 K)) (speed : K)
    (v : Option (Vec3 K)) : Option (Vec3 K) :=
  pos.bind fun p => v.map fun d => op p (Vec3.smul speed d)

/-- The function `processInput` (lines 170-192).  Both normalizations are computed
first, as in the source, and each may be undefined (division by zero; NaN components
in the float program).  An undefined vector matters only where a held movement key
uses it: the result is `none` exactly when such a vector enters `cameraPos`, and with
no movement key held the camera is left as it is. -/
def processInput (M : MathLib K) (c : Camera K) (keys : Keys) : Option (Camera K) :=
  let shouldClose := if keys.escape then true else c.windowShouldClose
  let cameraSpeed := 2.5 * c.deltaTime
  let horizontalFront : Option (Vec3 K) :=
    normalize M ⟨c.cameraFront.x, 0, c.cameraFront.z⟩
  let horizontalRight : Option (Vec3 K) :=
    horizontalFront.bind fun hf => normalize M (Vec3.cross hf c.cameraUp)
  let pos : Option (Vec3 K) := some c.cameraPos
  let pos := if keys.w then moveBy Vec3.add pos cameraSpeed horizontalFront else pos
  let pos := if keys.s then moveBy Vec3.sub pos cameraSpeed horizontalFront else pos
  let pos := if keys.a then moveBy Vec3.sub pos cameraSpeed horizontalRight else pos
  let pos := if keys.d then moveBy Vec3.add pos cameraSpeed horizontalRight else pos
  pos.map fun p => { c with cameraPos := p, windowShouldClose := shouldClose }

/-- The function `mouse_callback` (lines 201-230).  The result is `none` when the
final normalization divides by zero. -/
def mouse_callback (M : MathLib K) (c : Camera K) (xpos ypos : K) : Option (Camera K) := do
  let lastX := if c.firstMouse then xpos else c.lastX
  let lastY := if c.firstMouse then ypos else c.lastY
  let xoffset := xpos - lastX
  let yoffset := lastY - ypos
  let sensitivity : K := 0.05
  let xoffset := xoffset * sensitivity
  let yoffset := yoffset * sensitivity
  let yaw := c.yaw + xoffset
  let pitch := c.pitch + yoffset
  let pitch := if pitch > 89 then 89 else pitch
  let pitch := if pitch < -89 then -89 else pitch
  let front : Vec3 K :=
    ⟨M.cos (radians M pitch) * M.cos (radians M yaw),
     M.sin (radians M pitch),
     M.cos (radians M pitch) * M.sin (radians M yaw)⟩
  let cameraFront ← normalize M front
  pure { c with
    lastX := xpos, lastY := ypos, firstMouse := false,
    yaw := yaw, pitch := pitch, cameraFront := cameraFront }

/-- The function `scroll_callback` (lines 233-240).  The subtraction is exact here;
the `float` of the program holds the result exactly while it is an integer of
absolute value at most `2^24 = 16777216`. -/
def scroll_callback (c : Camera K) (_xoffset yoffset : K) : Camera K :=
  let fov := if c.fov ≥ 1 then c.fov - yoffset else c.fov
  let fov := if fov ≤ 1 then 1 else fov
  { c with fov := fov }

/-- A sequence of scroll events, each a pair `(xoffset, yoffset)`, handled in order. -/
def scrollAll (c : Camera K) (events : List (K × K)) : Camera K :=
  events.foldl (fun acc e => scroll_callback acc e.1 e.2) c

/-- A sequence of cursor samples `(xpos, ypos)`, handled in order. -/
def mouseAll (M : MathLib K) (c : Camera K) (samples : List (K × K)) : Option (Camera K) :=
  samples.foldlM (fun acc p => mouse_callback M acc p.1 p.2) c

/-- The hard floor the spec compares the two-branch clamp of `scroll_callback`
with: `max 1 (fov - yoffset)`. -/
def hardFloorFov (fov yoffset : K) : K := max 1 (fov - yoffset)

end Model

/-- The camera states the program reaches over the reals: the initial globals, and
every state obtained from a reached one by the timing statements of the render
loop, by `processInput`, by `mouse_callback` or by `scroll_callback`. -/
inductive Reachable : Camera ℝ → Prop
  | initial : Reachable initialCamera
  | frame (c : Camera ℝ) (currentFrame : ℝ) : Reachable c → Reachable (frameTime c currentFrame)
  | input (c : Camera ℝ) (keys : Keys) (c' : Camera ℝ) :
      Reachable c → processInput realMath c keys = some c' → Reachable c'
  | mouse (c : Camera ℝ) (xpos ypos : ℝ) (c' : Camera ℝ) :
      Reachable c → mouse_callback realMath c xpos ypos = some c' → Reachable c'
  | scroll (c : Camera ℝ) (xoffset yoffset : ℝ) :
      Reachable c → Reachable (scroll_callback c xoffset yoffset)

/-- Both normalizations of `processInput` are defined on the state `c`:
`horizontalFront` is a unit vector, its cross product with `cameraUp` is not the
zero vector, `horizontalRight` is a unit vector orthogonal to `horizontalFront`, and
`processInput` returns for every combination of keys. -/
def NormalizationsDefined (c : Camera ℝ) : Prop :=
  ∃ hf hr : Vec3 ℝ,
    normalize realMath ⟨c.cameraFront.x, 0, c.cameraFront.z⟩ = some hf ∧
    Vec3.dot hf hf = 1 ∧
    Vec3.cross hf c.cameraUp ≠ ⟨0, 0, 0⟩ ∧
    normalize realMath (Vec3.cross hf c.cameraUp) = some hr ∧
    Vec3.dot hr hr = 1 ∧
    Vec3.dot hf hr = 0 ∧
    ∀ keys : Keys, ∃ c', processInput realMath c keys = some c'

/-! ## Scrolling -/

section Scroll

variable {K : Type} [LinearOrderedField K]

/-- The field of view `scroll_callback` leaves, as a function of the prior one. -/
theorem scroll_callback_fov (c : Camera K) (xoffset yoffset : K) :
    (scroll_callback c xoffset yoffset).fov =
      if 1 ≤ c.fov then (if c.fov - yoffset ≤ 1 then 1 else c.fov - yoffset) else 1 := by
  unfold scroll_callback
  by_cases h : 1 ≤ c.fov
  · simp [h]
  · have h' : c.fov ≤ 1 := le_of_lt (not_le.mp h)
    simp [h, h']

theorem one_le_scroll_callback_fov (c : Camera K) (xoffset yoffset : K) :
    1 ≤ (scroll_callback c xoffset yoffset).fov := by
  rw [scroll_callback_fov]
  split_ifs with h1 h2
  · exact le_refl 1
  · exact le_of_lt (not_le.mp h2)
  · exact le_refl 1

theorem scrollAll_append_singleton (c : Camera K) (events : List (K × K)) (e : K × K) :
    scrollAll c (events ++ [e]) = scroll_callback (scrollAll c events) e.1 e.2 := by
  simp [scrollAll, List.foldl_append]

theorem one_le_scrollAll_fov (c : Camera K) (h : 1 ≤ c.fov) (events : List (K × K)) :
    1 ≤ (scrollAll c events).fov := by
  induction events using List.reverseRecOn with
  | nil => simpa [scrollAll] using h
  | append_singleton es e _ =>
    rw [scrollAll_append_singleton]
    exact one_le_scroll_callback_fov _ _ _

theorem one_le_initialCamera_fov : (1 : K) ≤ (initialCamera : Camera K).fov := by
  simp [initialCamera]

/-- C4: whatever the prior field of view (also one below 1) and whatever the scroll
delta, `scroll_callback` leaves `fov ≥ 1`; hence the field of view is at least 1
after the last call of every non-empty sequence of scroll events from any state,
and after every sequence of scroll events from the initial state. -/
theorem scroll_callback_never_below_one :
    (∀ (c : Camera K) (xoffset yoffset : K), 1 ≤ (scroll_callback c xoffset yoffset).fov) ∧
    (∀ (c : Camera K) (events : List (K × K)) (e : K × K),
      1 ≤ (scrollAll c (events ++ [e])).fov) ∧
    (∀ events : List (K × K), 1 ≤ (scrollAll (initialCamera : Camera K) events).fov) := by
  refine ⟨one_le_scroll_callback_fov, ?_, ?_⟩
  · intro c events e
    rw [scrollAll_append_singleton]
    exact one_le_scroll_callback_fov _ _ _
  · intro events
    exact one_le_scrollAll_fov _ one_le_initialCamera_fov events

/-- C9: on every state with `fov ≥ 1`, and so on every state reached from the
initial state by scroll events, the two-branch `scroll_callback` leaves exactly the
hard floor `max 1 (fov - yoffset)`.  On a state with `fov < 1` it leaves exactly 1
whatever `yoffset` is, and for some `yoffset` (such as `fov - 2`, where the hard
floor is 2) that is not the hard floor. -/
theorem scroll_callback_eq_hardFloor :
    (∀ (c : Camera K) (xoffset yoffset : K), 1 ≤ c.fov →
      (scroll_callback c xoffset yoffset).fov = hardFloorFov c.fov yoffset) ∧
    (∀ (events : List (K × K)) (xoffset yoffset : K),
      (scroll_callback (scrollAll initialCamera events) xoffset yoffset).fov
        = hardFloorFov (scrollAll (initialCamera : Camera K) events).fov yoffset) ∧
    (∀ (c : Camera K) (xoffset yoffset : K), c.fov < 1 →
      (scroll_callback c xoffset yoffset).fov = 1) ∧
    (∀ (c : Camera K), c.fov < 1 → ∃ yoffset : K, ∀ xoffset : K,
      (scroll_callback c xoffset yoffset).fov ≠ hardFloorFov c.fov yoffset) := by
  have key : ∀ (c : Camera K) (xoffset yoffset : K), 1 ≤ c.fov →
      (scroll_callback c xoffset yoffset).fov = hardFloorFov c.fov yoffset := by
    intro c xoffset yoffset h
    rw [scroll_callback_fov, if_pos h, hardFloorFov]
    split_ifs with h2
    · exact (max_eq_left h2).symm
    · exact (max_eq_right (le_of_lt (not_le.mp h2))).symm
  refine ⟨key, ?_, ?_, ?_⟩
  · intro events xoffset yoffset
    exact key _ _ _ (one_le_scrollAll_fov _ one_le_initialCamera_fov events)
  · intro c xoffset yoffset h
    rw [scroll_callback_fov, if_neg (not_le.mpr h)]
  · intro c h
    refine ⟨c.fov - 2, fun xoffset => ?_⟩
    rw [scroll_callback_fov, if_neg (not_le.mpr h), hardFloorFov]
    have h2 : c.fov - (c.fov - 2) = 2 := by ring
    rw [h2, max_eq_right (by norm_num : (1 : K) ≤ 2)]
    norm_num

/-- C9 at concrete inputs: from `fov = 45` a scroll of 50 leaves the hard floor
`max 1 (45 - 50) = 1`, and from `fov = 1/2` a scroll of `-5` leaves 1. -/
theorem scroll_callback_eq_hardFloor_at_initial :
    (scroll_callback (initialCamera : Camera ℚ) 0 50).fov = hardFloorFov 45 50 ∧
    (scroll_callback { (initialCamera : Camera ℚ) with fov := 1 / 2 } 0 (-5)).fov = 1 :=
  ⟨scroll_callback_eq_hardFloor.1 (initialCamera : Camera ℚ) 0 50
      (by norm_num [initialCamera]),
   scroll_callback_eq_hardFloor.2.2.1 { (initialCamera : Camera ℚ) with fov := 1 / 2 } 0 (-5)
      (by norm_num)⟩

end Scroll

/-! ## Mouse look -/

section Mouse

theorem inversesqrt_real_one : inversesqrt realMath 1 = some 1 := by
  simp [inversesqrt, realMath]

/-- Over the reals, normalizing a unit vector returns it. -/
theorem normalize_real_of_unit (v : Vec3 ℝ) (h : Vec3.dot v v = 1) :
    normalize realMath v = some v := by
  simp [normalize, h, inversesqrt_real_one]

theorem lookDirection_unit (p y : ℝ) :
    Vec3.dot (K := ℝ) ⟨Real.cos p * Real.cos y, Real.sin p, Real.cos p * Real.sin y⟩
      ⟨Real.cos p * Real.cos y, Real.sin p, Real.cos p * Real.sin y⟩ = 1 := by
  simp only [Vec3.dot]
  linear_combination (Real.cos p) ^ 2 * Real.cos_sq_add_sin_sq y + Real.cos_sq_add_sin_sq p

/-- The pitch clamp of `mouse_callback` is the clamp to `[-89, 89]`. -/
theorem pitch_clamp_eq (p : ℝ) :
    (if (if p > 89 then 89 else p) < -89 then -89 else (if p > 89 then 89 else p))
      = max (-89) (min 89 p) := by
  by_cases h1 : p > 89
  · have : min 89 p = 89 := min_eq_left (le_of_lt h1)
    simp [h1, this]
  · have h1' : p ≤ 89 := not_lt.mp h1
    have : min 89 p = p := min_eq_right h1'
    simp only [h1, if_false, this]
    by_cases h2 : p < -89
    · simp [h2, max_eq_left (le_of_lt h2)]
    · simp [h2, max_eq_right (not_lt.mp h2)]

/-- Over the reals `mouse_callback` always returns, with the state spelled out here. -/
theorem mouse_callback_real (c : Camera ℝ) (xpos ypos : ℝ) :
    mouse_callback realMath c xpos ypos = some
      { c with
        lastX := xpos
        lastY := ypos
        firstMouse := false
        yaw := c.yaw + (xpos - (if c.firstMouse then xpos else c.lastX)) * 0.05
        pitch := max (-89) (min 89
          (c.pitch + ((if c.firstMouse then ypos else c.lastY) - ypos) * 0.05))
        cameraFront :=
          ⟨Real.cos (radians realMath (max (-89) (min 89
              (c.pitch + ((if c.firstMouse then ypos else c.lastY) - ypos) * 0.05)))) *
            Real.cos (radians realMath
              (c.yaw + (xpos - (if c.firstMouse then xpos else c.lastX)) * 0.05)),
           Real.sin (radians realMath (max (-89) (min 89
              (c.pitch + ((if c.firstMouse then ypos else c.lastY) - ypos) * 0.05)))),
           Real.cos (radians realMath (max (-89) (min 89
              (c.pitch + ((if c.firstMouse then ypos else c.lastY) - ypos) * 0.05)))) *
            Real.sin (radians realMath
              (c.yaw + (xpos - (if c.firstMouse then xpos else c.lastX)) * 0.05))⟩ } := by
  unfold mouse_callback
  simp only [pitch_clamp_eq]
  have hcos : realMath.cos = Real.cos := rfl
  have hsin : realMath.sin = Real.sin := rfl
  rw [hcos, hsin, normalize_real_of_unit _ (lookDirection_unit _ _)]
  rfl

theorem mouseAll_append_singleton (M : MathLib ℝ) (c : Camera ℝ) (samples : List (ℝ × ℝ))
    (p : ℝ × ℝ) :
    mouseAll M c (samples ++ [p])
      = (mouseAll M c samples).bind fun c1 => mouse_callback M c1 p.1 p.2 := by
  simp [mouseAll, List.foldlM_append]

theorem mouseAll_real_returns (c : Camera ℝ) (samples : List (ℝ × ℝ)) :
    ∃ c', mouseAll realMath c samples = some c' := by
  induction samples using List.reverseRecOn with
  | nil => exact ⟨c, rfl⟩
  | append_singleton ps p ih =>
    obtain ⟨c1, h1⟩ := ih
    rw [mouseAll_append_singleton, h1, Option.some_bind, mouse_callback_real]
    exact ⟨_, rfl⟩

theorem radians_real_neg_ninety : radians realMath (-90) = -(Real.pi / 2) := by
  simp only [radians, realMath]
  ring

theorem radians_real_zero : radians realMath 0 = 0 := by
  simp [radians]

/-- C1: for every prior camera state and every cursor sample, `mouse_callback`
returns and leaves `-89 ≤ pitch ≤ 89`; hence the pitch is within `[-89, 89]` after
the last call of every non-empty sequence of cursor samples, from any state. -/
theorem mouse_callback_pitch_within_bounds :
    (∀ (c : Camera ℝ) (xpos ypos : ℝ), ∃ c',
      mouse_callback realMath c xpos ypos = some c' ∧ -89 ≤ c'.pitch ∧ c'.pitch ≤ 89) ∧
    (∀ (c : Camera ℝ) (samples : List (ℝ × ℝ)) (p : ℝ × ℝ), ∃ c',
      mouseAll realMath c (samples ++ [p]) = some c' ∧ -89 ≤ c'.pitch ∧ c'.pitch ≤ 89) := by
  have one : ∀ (c : Camera ℝ) (xpos ypos : ℝ), ∃ c',
      mouse_callback realMath c xpos ypos = some c' ∧ -89 ≤ c'.pitch ∧ c'.pitch ≤ 89 := by
    intro c xpos ypos
    refine ⟨_, mouse_callback_real c xpos ypos, ?_, ?_⟩
    · exact le_max_left _ _
    · exact max_le (by norm_num) (min_le_left _ _)
  refine ⟨one, ?_⟩
  intro c samples p
  obtain ⟨c1, h1⟩ := mouseAll_real_returns c samples
  obtain ⟨c', h', hb⟩ := one c1 p.1 p.2
  exact ⟨c', by rw [mouseAll_append_singleton, h1, Option.some_bind, h'], hb⟩

/-- C2: for every prior camera state and every cursor sample, the `cameraFront`
left by `mouse_callback` is the normalized vector
`(cos pitch * cos yaw, sin pitch, cos pitch * sin yaw)` of the updated angles (in
radians) and is a unit vector: `x^2 + y^2 + z^2 = 1`. -/
theorem mouse_callback_front_is_unit (c : Camera ℝ) (xpos ypos : ℝ) :
    ∃ c', mouse_callback realMath c xpos ypos = some c' ∧
      normalize realMath
        ⟨Real.cos (radians realMath c'.pitch) * Real.cos (radians realMath c'.yaw),
         Real.sin (radians realMath c'.pitch),
         Real.cos (radians realMath c'.pitch) * Real.sin (radians realMath c'.yaw)⟩
        = some c'.cameraFront ∧
      c'.cameraFront.x ^ 2 + c'.cameraFront.y ^ 2 + c'.cameraFront.z ^ 2 = 1 := by
  refine ⟨_, mouse_callback_real c xpos ypos, ?_, ?_⟩
  · exact normalize_real_of_unit _ (lookDirection_unit _ _)
  · have h := lookDirection_unit
      (radians realMath (max (-89) (min 89
        (c.pitch + ((if c.firstMouse then ypos else c.lastY) - ypos) * 0.05))))
      (radians realMath
        (c.yaw + (xpos - (if c.firstMouse then xpos else c.lastX)) * 0.05))
    simp only [Vec3.dot] at h
    simp only [pow_two]
    exact h

theorem mouse_callback_binary32_first (xpos ypos : ℚ) :
    mouse_callback binary32FirstCall initialCamera xpos ypos = some
      { (initialCamera : Camera ℚ) with
        lastX := xpos
        lastY := ypos
        firstMouse := false
        cameraFront := ⟨-(6151831 / 140737488355328), 0, -1⟩ } := by
  have hr0 : radians binary32FirstCall 0 = 0 := by simp [radians]
  have hr90 : radians binary32FirstCall (-90) = -90 * (9370165 / 536870912) := rfl
  have hc0 : binary32FirstCall.cos 0 = 1 := by simp [binary32FirstCall]
  have hs0 : binary32FirstCall.sin 0 = 0 := by simp [binary32FirstCall]
  have hc90 : binary32FirstCall.cos (-90 * (9370165 / 536870912))
      = -(6151831 / 140737488355328) := by
    simp only [binary32FirstCall]
    norm_num
  have hs90 : binary32FirstCall.sin (-90 * (9370165 / 536870912)) = -1 := by
    simp only [binary32FirstCall]
    norm_num
  have hn : normalize binary32FirstCall
      ⟨1 * -(6151831 / 140737488355328), 0, 1 * -1⟩
      = some ⟨-(6151831 / 140737488355328), 0, -1⟩ := by
    simp only [normalize, inversesqrt, Vec3.dot, binary32FirstCall]
    norm_num
  have hy : (-90 : ℚ) + (xpos - xpos) * 0.05 = -90 := by ring
  have hp : (0 : ℚ) + (ypos - ypos) * 0.05 = 0 := by ring
  have hp1 : ¬ ((0 : ℚ) > 89) := by norm_num
  have hp2 : ¬ ((0 : ℚ) < -89) := by norm_num
  simp only [mouse_callback, initialCamera, if_true, hy, hp, if_neg hp1, if_neg hp2, hr0,
    hr90, hc0, hs0, hc90, hs90, hn]
  rfl

/-- C3, as stated, fails: `mouse_callback` has no early return and recomputes
`cameraFront` on the first call too.  With the values of the binary32 math library
the first call on the initial state, here with the cursor sample `(500, 200)` and
likewise for every sample, leaves `cameraFront = (-6151831 / 2^47, 0, -1)`, which
is not the initial `(0, 0, -1)`. -/
theorem first_mouse_callback_moves_front :
    mouse_callback binary32FirstCall initialCamera 500 200 = some
      { (initialCamera : Camera ℚ) with
        lastX := 500
        lastY := 200
        firstMouse := false
        cameraFront := ⟨-(6151831 / 140737488355328), 0, -1⟩ } ∧
    (⟨-(6151831 / 140737488355328), 0, -1⟩ : Vec3 ℚ)
      ≠ (initialCamera : Camera ℚ).cameraFront ∧
    (∀ xpos ypos : ℚ, ∃ c',
      mouse_callback binary32FirstCall initialCamera xpos ypos = some c' ∧
      c'.cameraFront ≠ (initialCamera : Camera ℚ).cameraFront) := by
  have hne : (⟨-(6151831 / 140737488355328), 0, -1⟩ : Vec3 ℚ)
      ≠ (initialCamera : Camera ℚ).cameraFront := by
    intro h
    have hx := congrArg Vec3.x h
    simp only [initialCamera] at hx
    norm_num at hx
  refine ⟨mouse_callback_binary32_first 500 200, hne, ?_⟩
  intro xpos ypos
  exact ⟨_, mouse_callback_binary32_first xpos ypos, hne⟩

/-- C3, amended: on every state with `firstMouse = true`, `yaw = -90` and
`pitch = 0` (the initial values; the other globals are arbitrary), for every cursor
sample and every math library, the first `mouse_callback` call changes nothing but
`lastX`, `lastY`, `firstMouse` and `cameraFront`: `yaw` and `pitch` stay, the sample
is stored, `firstMouse` is cleared, and `cameraFront` becomes the normalized
`(cos 0 * cos (-90°), sin 0, cos 0 * sin (-90°))` recomputed from the unchanged
angles.  Where the library gives exactly `cos (-90°) = 0` (with `cos 0 = 1`,
`sin 0 = 0`, `sin (-90°) = -1`, `sqrt 1 = 1`), as the real functions do, that is
the prior `cameraFront = (0, 0, -1)` and the orientation is unchanged. -/
theorem first_mouse_callback_keeps_angles {K : Type} [LinearOrderedField K] (M : MathLib K)
    (c : Camera K) (xpos ypos : K)
    (hfirst : c.firstMouse = true) (hyaw : c.yaw = -90) (hpitch : c.pitch = 0) :
    mouse_callback M c xpos ypos =
      (normalize M
        ⟨M.cos (radians M 0) * M.cos (radians M (-90)),
         M.sin (radians M 0),
         M.cos (radians M 0) * M.sin (radians M (-90))⟩).map
        (fun front =>
          { c with lastX := xpos, lastY := ypos, firstMouse := false, cameraFront := front }) ∧
    (∀ c', mouse_callback M c xpos ypos = some c' →
      c'.yaw = c.yaw ∧ c'.pitch = c.pitch ∧ c'.lastX = xpos ∧ c'.lastY = ypos ∧
      c'.firstMouse = false) ∧
    (c.cameraFront = ⟨0, 0, -1⟩ → M.cos (radians M 0) = 1 → M.sin (radians M 0) = 0 →
      M.cos (radians M (-90)) = 0 → M.sin (radians M (-90)) = -1 → M.sqrt 1 = 1 →
      mouse_callback M c xpos ypos = some
        { c with lastX := xpos, lastY := ypos, firstMouse := false }) := by
  have hy : c.yaw + (xpos - xpos) * 0.05 = -90 := by rw [hyaw]; ring
  have hp : c.pitch + (ypos - ypos) * 0.05 = 0 := by rw [hpitch]; ring
  have hp1 : ¬ ((0 : K) > 89) := by norm_num
  have hp2 : ¬ ((0 : K) < -89) := by norm_num
  have key : mouse_callback M c xpos ypos =
      (normalize M
        ⟨M.cos (radians M 0) * M.cos (radians M (-90)),
         M.sin (radians M 0),
         M.cos (radians M 0) * M.sin (radians M (-90))⟩).map
        (fun front =>
          { c with lastX := xpos, lastY := ypos, firstMouse := false, cameraFront := front }) := by
    simp only [mouse_callback, hfirst, if_true, hy, hp, if_neg hp1, if_neg hp2]
    cases normalize M
      ⟨M.cos (radians M 0) * M.cos (radians M (-90)), M.sin (radians M 0),
       M.cos (radians M 0) * M.sin (radians M (-90))⟩ with
    | none => rfl
    | some front =>
      simp only [Option.bind_eq_bind, Option.some_bind, Option.map_some', Option.pure_def,
        ← hyaw, ← hpitch]
  refine ⟨key, ?_, ?_⟩
  · intro c' hc'
    rw [key] at hc'
    cases hn : normalize M
      ⟨M.cos (radians M 0) * M.cos (radians M (-90)), M.sin (radians M 0),
       M.cos (radians M 0) * M.sin (radians M (-90))⟩ with
    | none => rw [hn] at hc'; exact Option.noConfusion hc'
    | some front =>
      rw [hn, Option.map_some'] at hc'
      rw [← Option.some.inj hc']
      exact ⟨rfl, rfl, rfl, rfl, rfl⟩
  · intro hfront hc0 hs0 hc90 hs90 hsq
    rw [key, hc0, hs0, hc90, hs90]
    have hn : normalize M ⟨1 * 0, 0, 1 * -1⟩ = some ⟨0, 0, -1⟩ := by
      have hd : Vec3.dot (K := K) ⟨1 * 0, 0, 1 * -1⟩ ⟨1 * 0, 0, 1 * -1⟩ = 1 := by
        simp [Vec3.dot]
      simp only [normalize, inversesqrt, hd, hsq]
      simp
    rw [hn, Option.map_some', ← hfront]

/-- C3 amended, over the reals, on the initial state after the timing statements of
a first frame at time 2, with the cursor sample `(500, 200)`: the hypotheses hold,
the real functions give `cos (-90°) = 0`, and only `lastX`, `lastY` and `firstMouse`
change. -/
theorem first_mouse_callback_keeps_angles_real :
    (frameTime (initialCamera : Camera ℝ) 2).firstMouse = true ∧
    (frameTime (initialCamera : Camera ℝ) 2).yaw = -90 ∧
    (frameTime (initialCamera : Camera ℝ) 2).pitch = 0 ∧
    mouse_callback realMath (frameTime initialCamera 2) 500 200 = some
      { frameTime (initialCamera : Camera ℝ) 2 with
        lastX := 500, lastY := 200, firstMouse := false } :=
  ⟨rfl, rfl, rfl,
    (first_mouse_callback_keeps_angles realMath (frameTime initialCamera 2) 500 200
      rfl rfl rfl).2.2 rfl
      (by rw [radians_real_zero]; exact Real.cos_zero)
      (by rw [radians_real_zero]; exact Real.sin_zero)
      (by rw [radians_real_neg_ninety]
          show Real.cos (-(Real.pi / 2)) = 0
          rw [Real.cos_neg, Real.cos_pi_div_two])
      (by rw [radians_real_neg_ninety]
          show Real.sin (-(Real.pi / 2)) = -1
          rw [Real.sin_neg, Real.sin_pi_div_two])
      Real.sqrt_one⟩

/-- C6: on a state with `firstMouse = false`, `mouse_callback` returns the state
with `yaw + 0.05 * (xpos - lastX)` as yaw, `pitch + 0.05 * (lastY - ypos)` clamped to
`[-89, 89]` as pitch, `(cos pitch' * cos yaw', sin pitch', cos pitch' * sin yaw')`
of the new angles in radians as `cameraFront`, and the sample as `lastX`, `lastY`.
With `yaw = -90`, `pitch = 0`, `xpos - lastX = 100` and `ypos = lastY` that is
`yaw = -85`, `pitch = 0` and `cameraFront = (cos (-85°), 0, sin (-85°))`. -/
theorem mouse_callback_update (c : Camera ℝ) (xpos ypos : ℝ) (hfirst : c.firstMouse = false) :
    mouse_callback realMath c xpos ypos = some
      { c with
        yaw := c.yaw + 0.05 * (xpos - c.lastX)
        pitch := max (-89) (min 89 (c.pitch + 0.05 * (c.lastY - ypos)))
        cameraFront :=
          ⟨Real.cos (radians realMath (max (-89) (min 89 (c.pitch + 0.05 * (c.lastY - ypos))))) *
            Real.cos (radians realMath (c.yaw + 0.05 * (xpos - c.lastX))),
           Real.sin (radians realMath (max (-89) (min 89 (c.pitch + 0.05 * (c.lastY - ypos))))),
           Real.cos (radians realMath (max (-89) (min 89 (c.pitch + 0.05 * (c.lastY - ypos))))) *
            Real.sin (radians realMath (c.yaw + 0.05 * (xpos - c.lastX)))⟩
        lastX := xpos
        lastY := ypos } ∧
    (c.yaw = -90 → c.pitch = 0 → xpos - c.lastX = 100 → ypos = c.lastY →
      mouse_callback realMath c xpos ypos = some
        { c with
          yaw := -85
          pitch := 0
          cameraFront :=
            ⟨Real.cos (radians realMath (-85)), 0, Real.sin (radians realMath (-85))⟩
          lastX := xpos
          lastY := ypos }) := by
  have h1 : c.yaw + (xpos - c.lastX) * 0.05 = c.yaw + 0.05 * (xpos - c.lastX) := by ring
  have h2 : c.pitch + (c.lastY - ypos) * 0.05 = c.pitch + 0.05 * (c.lastY - ypos) := by ring
  constructor
  · rw [mouse_callback_real]
    simp only [hfirst, Bool.false_eq_true, if_false, h1, h2]
  · intro hyaw hpitch hx hy
    rw [mouse_callback_real]
    simp only [hfirst, Bool.false_eq_true, if_false, hyaw, hpitch, hx, hy, sub_self, zero_mul,
      add_zero]
    have e1 : (-90 : ℝ) + 100 * 0.05 = -85 := by norm_num
    have e2 : max (-89 : ℝ) (min 89 0) = 0 := by norm_num
    rw [e1, e2, radians_real_zero, Real.cos_zero, Real.sin_zero, one_mul, one_mul]

/-- C6 at the initial angles after the first sample: from `yaw = -90`, `pitch = 0`,
`lastX = 400`, `lastY = 300` the sample `(500, 300)` gives `yaw = -85`, `pitch = 0`
and `cameraFront = (cos (-85°), 0, sin (-85°))`. -/
theorem mouse_callback_update_hundred_right :
    ({ (initialCamera : Camera ℝ) with firstMouse := false }).firstMouse = false ∧
    mouse_callback realMath { (initialCamera : Camera ℝ) with firstMouse := false } 500 300
      = some
        { (initialCamera : Camera ℝ) with
          firstMouse := false
          yaw := -85
          pitch := 0
          cameraFront :=
            ⟨Real.cos (radians realMath (-85)), 0, Real.sin (radians realMath (-85))⟩
          lastX := 500
          lastY := 300 } :=
  ⟨rfl, (mouse_callback_update { (initialCamera : Camera ℝ) with firstMouse := false }
    500 300 rfl).2 rfl rfl (by norm_num [initialCamera]) rfl⟩

end Mouse

/-! ## Keyboard movement -/

section Keyboard

/-- Over the reals, normalizing a vector with a non-zero horizontal part and no
vertical part returns a horizontal unit vector. -/
theorem normalize_real_horizontal (fx fz : ℝ) (hnz : fx ≠ 0 ∨ fz ≠ 0) :
    ∃ hf, normalize realMath ⟨fx, 0, fz⟩ = some hf ∧ hf.y = 0 ∧ Vec3.dot hf hf = 1 ∧
      hf.x = fx / Real.sqrt (fx ^ 2 + fz ^ 2) ∧ hf.z = fz / Real.sqrt (fx ^ 2 + fz ^ 2) := by
  have hpos : 0 < fx ^ 2 + fz ^ 2 := by
    rcases hnz with h | h
    · have := pow_pos (abs_pos.mpr h) 2
      rw [sq_abs] at this
      nlinarith [sq_nonneg fz]
    · have := pow_pos (abs_pos.mpr h) 2
      rw [sq_abs] at this
      nlinarith [sq_nonneg fx]
  have hd : Vec3.dot (K := ℝ) ⟨fx, 0, fz⟩ ⟨fx, 0, fz⟩ = fx ^ 2 + fz ^ 2 := by
    simp only [Vec3.dot]
    ring
  have hs : Real.sqrt (fx ^ 2 + fz ^ 2) ≠ 0 := ne_of_gt (Real.sqrt_pos.mpr hpos)
  have hss : Real.sqrt (fx ^ 2 + fz ^ 2) * Real.sqrt (fx ^ 2 + fz ^ 2) = fx ^ 2 + fz ^ 2 :=
    Real.mul_self_sqrt (le_of_lt hpos)
  refine ⟨⟨fx * (1 / Real.sqrt (fx ^ 2 + fz ^ 2)), 0 * (1 / Real.sqrt (fx ^ 2 + fz ^ 2)),
    fz * (1 / Real.sqrt (fx ^ 2 + fz ^ 2))⟩, ?_, ?_, ?_, ?_, ?_⟩
  · have hsq : realMath.sqrt = Real.sqrt := rfl
    simp only [normalize, inversesqrt, hd, hsq, if_neg hs, Option.map_some']
  · simp
  · simp only [Vec3.dot]
    field_simp
    nlinarith [hss]
  · simp only [mul_one_div]
  · simp only [mul_one_div]

/-- Over the reals, the cross product of a horizontal unit vector with the world up
`(0, 1, 0)` is the horizontal unit vector `(-z, 0, x)`, which normalizes to itself. -/
theorem normalize_real_cross_up (hf : Vec3 ℝ) (hy : hf.y = 0) (hu : Vec3.dot hf hf = 1) :
    Vec3.cross hf ⟨0, 1, 0⟩ = ⟨-hf.z, 0, hf.x⟩ ∧
    normalize realMath (Vec3.cross hf ⟨0, 1, 0⟩) = some ⟨-hf.z, 0, hf.x⟩ := by
  have hc : Vec3.cross hf ⟨0, 1, 0⟩ = ⟨-hf.z, 0, hf.x⟩ := by
    simp [Vec3.cross, hy]
  refine ⟨hc, ?_⟩
  rw [hc]
  apply normalize_real_of_unit
  simp only [Vec3.dot, hy] at hu ⊢
  linarith

/-- Over the reals, on a state with world up `(0, 1, 0)` and a `cameraFront` whose
horizontal part is non-zero, `processInput` returns; `hf` and `hr` are its
`horizontalFront` and `horizontalRight`. -/
theorem processInput_real (c : Camera ℝ) (keys : Keys) (hup : c.cameraUp = ⟨0, 1, 0⟩)
    (hnz : c.cameraFront.x ≠ 0 ∨ c.cameraFront.z ≠ 0) :
    ∃ hf hr : Vec3 ℝ,
      normalize realMath ⟨c.cameraFront.x, 0, c.cameraFront.z⟩ = some hf ∧
      normalize realMath (Vec3.cross hf c.cameraUp) = some hr ∧
      hf.y = 0 ∧ Vec3.dot hf hf = 1 ∧ hr = ⟨-hf.z, 0, hf.x⟩ ∧
      Vec3.cross hf c.cameraUp = ⟨-hf.z, 0, hf.x⟩ ∧
      hf.x = c.cameraFront.x / Real.sqrt (c.cameraFront.x ^ 2 + c.cameraFront.z ^ 2) ∧
      hf.z = c.cameraFront.z / Real.sqrt (c.cameraFront.x ^ 2 + c.cameraFront.z ^ 2) ∧
      processInput realMath c keys = some
        { c with
          cameraPos :=
            (fun p3 => if keys.d then Vec3.add p3 (Vec3.smul (2.5 * c.deltaTime) hr) else p3)
            ((fun p2 => if keys.a then Vec3.sub p2 (Vec3.smul (2.5 * c.deltaTime) hr) else p2)
            ((fun p1 => if keys.s then Vec3.sub p1 (Vec3.smul (2.5 * c.deltaTime) hf) else p1)
            (if keys.w then Vec3.add c.cameraPos (Vec3.smul (2.5 * c.deltaTime) hf)
              else c.cameraPos)))
          windowShouldClose := if keys.escape then true else c.windowShouldClose } := by
  obtain ⟨hf, h1, hy, hu, hx, hz⟩ := normalize_real_horizontal _ _ hnz
  obtain ⟨hc, h2⟩ := normalize_real_cross_up hf hy hu
  refine ⟨hf, ⟨-hf.z, 0, hf.x⟩, h1, ?_, hy, hu, rfl, ?_, hx, hz, ?_⟩
  · rw [hup]; exact h2
  · rw [hup]; exact hc
  · unfold processInput
    rw [h1]
    simp only [Option.some_bind]
    rw [hup, h2]
    obtain ⟨kesc, kw, ks, ka, kd⟩ := keys
    cases kw <;> cases ks <;> cases ka <;> cases kd <;>
      simp [moveBy]

/-- C7: with world up `(0, 1, 0)` and a `cameraFront` whose horizontal part is
non-zero, for every combination of held keys and every `deltaTime`, `processInput`
returns and moves `cameraPos` by exactly
`2.5 * deltaTime * ((w - s) * hf + (d - a) * hr)`, where `hf` is the normalized
`(front.x, 0, front.z)` and `hr` the normalized `cross hf cameraUp`.  So
`deltaTime = 0` leaves `cameraPos` as it was, and `front = (0, 0, -1)` with only W
held and `deltaTime = 1` moves `cameraPos` by `(0, 0, -2.5)`. -/
theorem processInput_displacement (c : Camera ℝ) (keys : Keys)
    (hup : c.cameraUp = ⟨0, 1, 0⟩)
    (hnz : c.cameraFront.x ≠ 0 ∨ c.cameraFront.z ≠ 0) :
    ∃ (hf hr : Vec3 ℝ) (c' : Camera ℝ),
      normalize realMath ⟨c.cameraFront.x, 0, c.cameraFront.z⟩ = some hf ∧
      normalize realMath (Vec3.cross hf c.cameraUp) = some hr ∧
      processInput realMath c keys = some c' ∧
      c'.cameraPos = Vec3.add c.cameraPos (Vec3.smul (2.5 * c.deltaTime)
        (Vec3.add
          (Vec3.smul ((if keys.w then 1 else 0) - (if keys.s then 1 else 0)) hf)
          (Vec3.smul ((if keys.d then 1 else 0) - (if keys.a then 1 else 0)) hr))) ∧
      (c.deltaTime = 0 → c'.cameraPos = c.cameraPos) ∧
      (c.cameraFront = ⟨0, 0, -1⟩ → keys.w = true → keys.s = false → keys.a = false →
        keys.d = false → c.deltaTime = 1 →
        c'.cameraPos = Vec3.add c.cameraPos ⟨0, 0, -2.5⟩) := by
  obtain ⟨hf, hr, h1, h2, hy, -, hhr, -, hx, hz, h3⟩ := processInput_real c keys hup hnz
  refine ⟨hf, hr, _, h1, h2, h3, ?_, ?_, ?_⟩
  · obtain ⟨kesc, kw, ks, ka, kd⟩ := keys
    cases kw <;> cases ks <;> cases ka <;> cases kd <;>
      simp only [Bool.false_eq_true, if_false, if_true] <;>
      ext <;> simp only [Vec3.add, Vec3.sub, Vec3.smul] <;> ring
  · intro hdt
    obtain ⟨kesc, kw, ks, ka, kd⟩ := keys
    cases kw <;> cases ks <;> cases ka <;> cases kd <;>
      simp only [Bool.false_eq_true, if_false, if_true, hdt] <;>
      ext <;> simp [Vec3.add, Vec3.sub, Vec3.smul]
  · intro hfront hw hs ha hd hdt
    have hfx : hf.x = 0 := by rw [hx, hfront]; simp
    have hfz : hf.z = -1 := by rw [hz, hfront]; simp
    simp only [hw, hs, ha, hd, hdt, Bool.false_eq_true, if_false, if_true]
    ext
    · simp [Vec3.add, Vec3.smul, hfx]
    · simp [Vec3.add, Vec3.smul, hy]
    · simp only [Vec3.add, Vec3.smul, hfz]; norm_num

/-- C7 at the initial camera with `deltaTime = 1` and only W held: the hypotheses
hold there and `cameraPos` moves by `(0, 0, -2.5)`. -/
theorem processInput_displacement_forward_one_second :
    ({ (initialCamera : Camera ℝ) with deltaTime := 1 }).cameraUp = ⟨0, 1, 0⟩ ∧
    (({ (initialCamera : Camera ℝ) with deltaTime := 1 }).cameraFront.x ≠ 0 ∨
      ({ (initialCamera : Camera ℝ) with deltaTime := 1 }).cameraFront.z ≠ 0) ∧
    ∃ c', processInput realMath { (initialCamera : Camera ℝ) with deltaTime := 1 }
        ⟨false, true, false, false, false⟩ = some c' ∧
      c'.cameraPos = Vec3.add (initialCamera : Camera ℝ).cameraPos ⟨0, 0, -2.5⟩ := by
  have hz : ({ (initialCamera : Camera ℝ) with deltaTime := 1 }).cameraFront.x ≠ 0 ∨
      ({ (initialCamera : Camera ℝ) with deltaTime := 1 }).cameraFront.z ≠ 0 :=
    Or.inr (by simp [initialCamera])
  refine ⟨rfl, hz, ?_⟩
  obtain ⟨_, _, c', -, -, h3, -, -, h6⟩ :=
    processInput_displacement { (initialCamera : Camera ℝ) with deltaTime := 1 }
      ⟨false, true, false, false, false⟩ rfl hz
  exact ⟨c', h3, h6 rfl rfl rfl rfl rfl rfl⟩

/-- With no movement key held `processInput` returns on every state, whatever the
math library: the two normalized vectors are not used. -/
theorem processInput_no_movement_key {K : Type} [LinearOrderedField K] (M : MathLib K)
    (c : Camera K) (kesc : Bool) :
    processInput M c ⟨kesc, false, false, false, false⟩ = some
      { c with windowShouldClose := if kesc then true else c.windowShouldClose } := by
  simp [processInput]

/-- Outside the reachable states: with `cameraFront = (0, 1, 0)` the normalization of
`(front.x, 0, front.z) = (0, 0, 0)` divides by zero, and with W held the undefined
vector enters `cameraPos`. -/
theorem processInput_undefined_at_vertical_front :
    processInput realMath
      { (initialCamera : Camera ℝ) with cameraFront := ⟨0, 1, 0⟩, deltaTime := 1 }
      ⟨false, true, false, false, false⟩ = none := by
  simp [processInput, moveBy, normalize, inversesqrt, realMath, Vec3.dot]

/-- Over the reals, with world up `(0, 1, 0)` and a `cameraFront` whose horizontal
part is non-zero, `processInput` returns and changes neither the height nor the
orientation nor the field of view. -/
theorem processInput_real_keeps_height (c : Camera ℝ) (keys : Keys)
    (hup : c.cameraUp = ⟨0, 1, 0⟩)
    (hnz : c.cameraFront.x ≠ 0 ∨ c.cameraFront.z ≠ 0) :
    ∃ c', processInput realMath c keys = some c' ∧
      c'.cameraPos.y = c.cameraPos.y ∧ c'.yaw = c.yaw ∧ c'.pitch = c.pitch ∧
      c'.cameraFront = c.cameraFront ∧ c'.fov = c.fov := by
  obtain ⟨hf, hr, -, -, hy, -, hhr, -, -, -, h3⟩ := processInput_real c keys hup hnz
  refine ⟨_, h3, ?_, rfl, rfl, rfl, rfl⟩
  have hry : hr.y = 0 := by rw [hhr]
  obtain ⟨kesc, kw, ks, ka, kd⟩ := keys
  cases kw <;> cases ks <;> cases ka <;> cases kd <;>
    simp [Vec3.add, Vec3.sub, Vec3.smul, hy, hry]

end Keyboard



/-! ## The normalizations never divide by zero -/

section Safety

theorem cos_radians_pos (p : ℝ) (h1 : -89 ≤ p) (h2 : p ≤ 89) :
    0 < Real.cos (radians realMath p) := by
  have hpi := Real.pi_pos
  apply Real.cos_pos_of_mem_Ioo
  simp only [radians, realMath, Set.mem_Ioo]
  constructor <;> nlinarith

theorem ne_zero_or_of_sq_add_sq_pos (a b : ℝ) (h : 0 < a ^ 2 + b ^ 2) : a ≠ 0 ∨ b ≠ 0 := by
  by_contra hcon
  push_neg at hcon
  rw [hcon.1, hcon.2] at h
  norm_num at h

theorem normalizationsDefined_of_horizontal (c : Camera ℝ) (hup : c.cameraUp = ⟨0, 1, 0⟩)
    (hnz : c.cameraFront.x ≠ 0 ∨ c.cameraFront.z ≠ 0) : NormalizationsDefined c := by
  obtain ⟨hf, hr, h1, h2, hy, hu, hhr, hc, -, -, -⟩ :=
    processInput_real c ⟨false, false, false, false, false⟩ hup hnz
  have hu' : hf.x * hf.x + hf.z * hf.z = 1 := by
    simp only [Vec3.dot, hy] at hu
    linarith
  refine ⟨hf, hr, h1, hu, ?_, h2, ?_, ?_, ?_⟩
  · rw [hc]
    intro h0
    have hz0 : -hf.z = 0 := congrArg Vec3.x h0
    have hx0 : hf.x = 0 := congrArg Vec3.z h0
    have hz1 : hf.z = 0 := neg_eq_zero.mp hz0
    rw [hx0, hz1] at hu'
    norm_num at hu'
  · rw [hhr]
    simp only [Vec3.dot]
    linarith
  · rw [hhr]
    simp only [Vec3.dot, hy]
    ring
  · intro keys
    obtain ⟨_, _, -, -, -, -, -, -, -, -, h3⟩ := processInput_real c keys hup hnz
    exact ⟨_, h3⟩

theorem mouse_callback_real_horizontal (c : Camera ℝ) (xpos ypos : ℝ) :
    ∃ c', mouse_callback realMath c xpos ypos = some c' ∧ c'.cameraUp = c.cameraUp ∧
      c'.cameraFront.x ^ 2 + c'.cameraFront.z ^ 2 = Real.cos (radians realMath c'.pitch) ^ 2 ∧
      0 < Real.cos (radians realMath c'.pitch) ^ 2 := by
  refine ⟨_, mouse_callback_real c xpos ypos, rfl, ?_, ?_⟩
  · simp only
    linear_combination
      (Real.cos (radians realMath (max (-89) (min 89
        (c.pitch + ((if c.firstMouse then ypos else c.lastY) - ypos) * 0.05))))) ^ 2 *
      Real.cos_sq_add_sin_sq (radians realMath
        (c.yaw + (xpos - (if c.firstMouse then xpos else c.lastX)) * 0.05))
  · apply pow_pos
    apply cos_radians_pos
    · exact le_max_left _ _
    · exact max_le (by norm_num) (min_le_left _ _)

theorem reachable_horizontal (c : Camera ℝ) (h : Reachable c) :
    c.cameraUp = ⟨0, 1, 0⟩ ∧ (c.cameraFront.x ≠ 0 ∨ c.cameraFront.z ≠ 0) := by
  induction h with
  | initial => exact ⟨rfl, Or.inr (by simp [initialCamera])⟩
  | frame c t _ ih => exact ih
  | input c keys c' _ hstep ih =>
    obtain ⟨_, _, -, -, -, -, -, -, -, -, h3⟩ := processInput_real c keys ih.1 ih.2
    rw [h3] at hstep
    cases hstep
    exact ih
  | mouse c xpos ypos c' _ hstep ih =>
    obtain ⟨c1, h1, hup, hsq, hpos⟩ := mouse_callback_real_horizontal c xpos ypos
    rw [h1] at hstep
    cases hstep
    refine ⟨hup.trans ih.1, ne_zero_or_of_sq_add_sq_pos _ _ ?_⟩
    rw [hsq]
    exact hpos
  | scroll c xoffset yoffset _ ih => exact ih

/-- C10: the normalizations of `processInput` never divide by zero on a reachable
camera state.  They are defined on the initial state; after every `mouse_callback`
call (on a state with world up `(0, 1, 0)`) the horizontal part of `cameraFront`
has `front.x^2 + front.z^2 = cos(pitch)^2 > 0` and they are defined; and they are
defined on every state reached through the handlers: `horizontalFront` is a unit
vector, `cross horizontalFront cameraUp` is non-zero and `horizontalRight` is a unit
vector orthogonal to `horizontalFront`. -/
theorem normalizations_defined_on_reachable_states :
    NormalizationsDefined initialCamera ∧
    (∀ (c : Camera ℝ) (xpos ypos : ℝ), c.cameraUp = ⟨0, 1, 0⟩ →
      ∃ c', mouse_callback realMath c xpos ypos = some c' ∧
        c'.cameraFront.x ^ 2 + c'.cameraFront.z ^ 2
          = Real.cos (radians realMath c'.pitch) ^ 2 ∧
        0 < Real.cos (radians realMath c'.pitch) ^ 2 ∧
        NormalizationsDefined c') ∧
    (∀ c : Camera ℝ, Reachable c → NormalizationsDefined c) := by
  refine ⟨?_, ?_, ?_⟩
  · exact normalizationsDefined_of_horizontal _ rfl (Or.inr (by simp [initialCamera]))
  · intro c xpos ypos hup
    obtain ⟨c', h1, hup', hsq, hpos⟩ := mouse_callback_real_horizontal c xpos ypos
    refine ⟨c', h1, hsq, hpos, ?_⟩
    apply normalizationsDefined_of_horizontal _ (hup'.trans hup)
    apply ne_zero_or_of_sq_add_sq_pos
    rw [hsq]
    exact hpos
  · intro c hc
    obtain ⟨hup, hnz⟩ := reachable_horizontal c hc
    exact normalizationsDefined_of_horizontal c hup hnz

/-- C10 at concrete inputs: after the cursor sample `(500, 200)` on the initial
state, and on the state reached by that sample followed by a scroll of 3. -/
theorem normalizations_defined_after_first_sample :
    (∃ c', mouse_callback realMath initialCamera 500 200 = some c' ∧
      NormalizationsDefined c') ∧
    (∀ c', mouse_callback realMath initialCamera 500 200 = some c' →
      NormalizationsDefined (scroll_callback c' 0 3)) := by
  constructor
  · obtain ⟨c', h, -, -, hn⟩ :=
      normalizations_defined_on_reachable_states.2.1 initialCamera 500 200 rfl
    exact ⟨c', h, hn⟩
  · intro c' h
    exact normalizations_defined_on_reachable_states.2.2 _
      (Reachable.scroll c' 0 3 (Reachable.mouse initialCamera 500 200 c' Reachable.initial h))

end Safety

/-! ## Keyboard movement stays in the horizontal plane -/

section HorizontalPlane

theorem vertical_front_not_reachable :
    ¬ Reachable { (initialCamera : Camera ℝ) with cameraFront := ⟨0, 1, 0⟩, deltaTime := 1 } := by
  intro h
  rcases (reachable_horizontal _ h).2 with hx | hz
  · exact hx rfl
  · exact hz rfl

/-- C8: keyboard movement is confined to the horizontal plane.  On every reachable
camera state (its `cameraFront` has whatever vertical component the pitch clamp
allows, its world up is `(0, 1, 0)`), for every `deltaTime` and every combination of
held keys, `processInput` returns and leaves `cameraPos.y`, `yaw`, `pitch`,
`cameraFront` and `fov` as they were.  The same holds on every state, reachable or
not, with world up `(0, 1, 0)` and a `cameraFront` whose horizontal part is non-zero. -/
theorem processInput_stays_in_horizontal_plane :
    (∀ c : Camera ℝ, Reachable c → ∀ (deltaTime : ℝ) (keys : Keys),
      ∃ c', processInput realMath { c with deltaTime := deltaTime } keys = some c' ∧
        c'.cameraPos.y = c.cameraPos.y ∧ c'.yaw = c.yaw ∧ c'.pitch = c.pitch ∧
        c'.cameraFront = c.cameraFront ∧ c'.fov = c.fov) ∧
    (∀ (c : Camera ℝ) (keys : Keys), c.cameraUp = ⟨0, 1, 0⟩ →
      (c.cameraFront.x ≠ 0 ∨ c.cameraFront.z ≠ 0) →
      ∃ c', processInput realMath c keys = some c' ∧
        c'.cameraPos.y = c.cameraPos.y ∧ c'.yaw = c.yaw ∧ c'.pitch = c.pitch ∧
        c'.cameraFront = c.cameraFront ∧ c'.fov = c.fov) := by
  refine ⟨?_, processInput_real_keeps_height⟩
  intro c hc deltaTime keys
  obtain ⟨hup, hnz⟩ := reachable_horizontal c hc
  exact processInput_real_keeps_height { c with deltaTime := deltaTime } keys hup hnz

/-- C8 on a reachable state that looks up as steeply as the clamp allows: after the
cursor samples `(400, 300)` and `(400, -2000)` the pitch is 89, and one second of W
and D held leaves the height 2.1; and at `front = (0.6, 0.8, 0)` likewise. -/
theorem processInput_stays_in_horizontal_plane_looking_up :
    (∃ c2 c', mouseAll realMath initialCamera [(400, 300), (400, -2000)] = some c2 ∧
      c2.pitch = 89 ∧
      processInput realMath { c2 with deltaTime := 1 } ⟨false, true, false, false, true⟩
        = some c' ∧
      c'.cameraPos.y = 2.1) ∧
    (∃ c', processInput realMath
        { (initialCamera : Camera ℝ) with cameraFront := ⟨0.6, 0.8, 0⟩, deltaTime := 1 }
        ⟨false, true, false, false, true⟩ = some c' ∧
      c'.cameraPos.y = 2.1) := by
  constructor
  · obtain ⟨c1, h1⟩ : ∃ c1, mouse_callback realMath initialCamera 400 300 = some c1 :=
      ⟨_, mouse_callback_real _ _ _⟩
    obtain ⟨c2, h2⟩ : ∃ c2, mouse_callback realMath c1 400 (-2000) = some c2 :=
      ⟨_, mouse_callback_real _ _ _⟩
    have hreach : Reachable c2 :=
      Reachable.mouse c1 400 (-2000) c2
        (Reachable.mouse initialCamera 400 300 c1 Reachable.initial h1) h2
    have hall : mouseAll realMath initialCamera [(400, 300), (400, -2000)] = some c2 := by
      simp [mouseAll, List.foldlM, h1, h2]
    have e1 := h1
    rw [mouse_callback_real] at e1
    have e1' := Option.some.inj e1
    have e2 := h2
    rw [mouse_callback_real] at e2
    have e2' := Option.some.inj e2
    have hpitch : c2.pitch = 89 := by
      rw [← e2', ← e1']
      simp [initialCamera]
      norm_num
    have hy : c2.cameraPos.y = 2.1 := by
      rw [← e2', ← e1']
      simp [initialCamera]
    obtain ⟨c', h, hy', -⟩ := processInput_stays_in_horizontal_plane.1 c2 hreach 1
      ⟨false, true, false, false, true⟩
    exact ⟨c2, c', hall, hpitch, h, hy'.trans hy⟩
  · obtain ⟨c', h, hy, -⟩ := processInput_stays_in_horizontal_plane.2
      { (initialCamera : Camera ℝ) with cameraFront := ⟨0.6, 0.8, 0⟩, deltaTime := 1 }
      ⟨false, true, false, false, true⟩ rfl (Or.inl (by norm_num))
    exact ⟨c', h, hy⟩

end HorizontalPlane

end InfiniteGrid
